import Mathlib

/-!
# Verification of the FEgrow molecular assembly and conformer-lifecycle pipeline

This development gives a shallow embedding, over exact rational arithmetic, of

* the R-group graft algorithm (`__getAttachmentVector`, `merge_R_group`
  in `rgroup/package.py`),
* the conformer-lifecycle stages (`remove_clashing_confs` and the gnina
  scoring adapter in `fegrow/package.py`; `optimise_in_receptor` and
  `sort_conformers` in `fegrow/receptor.py`),

and proves the stated invariants of that pipeline.  Machine integers do not
occur in the sources (Python integers are unbounded), so atom indices are
`Nat` and coordinates and energies are `Rat`.  Comparisons on Euclidean
distances are carried out on squared distances, which agrees with the
sources for nonnegative thresholds.  Fallible code is embedded with
`Except`.
-/

namespace FEgrow

/-- A 3-D coordinate with exact rational components. -/
structure Point where
  x : ℚ
  y : ℚ
  z : ℚ
deriving DecidableEq, Repr

/-- Squared Euclidean distance between two points.  The sources compute
`sqrt` of this value and compare against a threshold; every comparison in
this file is performed on squares instead. -/
def dist2 (p q : Point) : ℚ :=
  (p.x - q.x) ^ 2 + (p.y - q.y) ^ 2 + (p.z - q.z) ^ 2

/-- Componentwise sum of two points (used for rigid translations). -/
def ptAdd (p q : Point) : Point :=
  ⟨p.x + q.x, p.y + q.y, p.z + q.z⟩

/-- Componentwise difference of two points. -/
def ptSub (p q : Point) : Point :=
  ⟨p.x - q.x, p.y - q.y, p.z - q.z⟩

/-- Midpoint of two points (centroid of a two-atom correspondence). -/
def midpoint2 (p q : Point) : Point :=
  ⟨(p.x + q.x) / 2, (p.y + q.y) / 2, (p.z + q.z) / 2⟩

/-- An atom carries its atomic number; the attachment placeholder atom has
atomic number 0 (the rdkit wildcard). -/
structure Atom where
  atomicNum : ℕ
deriving DecidableEq, Repr

/-- A bond between two atom indices with a bond order (models the rdkit
bond type). -/
structure Bond where
  beginAtomIdx : ℕ
  endAtomIdx : ℕ
  order : ℕ
deriving DecidableEq, Repr

/-- A molecule: an atom list, a bond list, and one conformer given as a
coordinate per atom.  Atom identity is positional, as in rdkit. -/
structure Mol where
  atoms : List Atom
  bonds : List Bond
  conf : List Point
deriving DecidableEq, Repr

/-- The neighbour indices of atom `i`, in bond-list order (embeds the rdkit
`GetNeighbors`). -/
def neighborsOf (m : Mol) (i : ℕ) : List ℕ :=
  m.bonds.filterMap fun b =>
    if b.beginAtomIdx = i then some b.endAtomIdx
    else if b.endAtomIdx = i then some b.beginAtomIdx
    else none

/-- The bonds incident to atom `i`, in bond-list order (embeds the rdkit
`GetBonds`). -/
def bondsOf (m : Mol) (i : ℕ) : List Bond :=
  m.bonds.filter fun b => b.beginAtomIdx == i || b.endAtomIdx == i

/-- The index of the first atom whose atomic number is 0, scanning atoms in
order, as the `for atom in R_group.GetAtoms()` loop does. -/
def firstRAtomIdx (m : Mol) : Option ℕ :=
  (List.range m.atoms.length).find? fun i =>
    (m.atoms.getD i ⟨1⟩).atomicNum == 0

/-- The failure modes of the graft code.  `indexError` stands for a Python
`IndexError` (indexing `neighbours[0]` on an empty list, or an atom index
out of range); `replaceAtomNotTerminal` stands for the `assert` that the
replaced atom has exactly one neighbour. -/
inductive GraftError where
  | noRAtom
  | multipleAttachmentPoints
  | indexError
  | replaceAtomNotTerminal
deriving DecidableEq, Repr

/-- Embeds `__getAttachmentVector` (rgroup/package.py, lines 52-70): scan
the atoms in order; at the first atom with atomic number 0, fail if it has
two or more neighbours, index into its neighbour list otherwise; fail with
the no-R-atom error when the scan finds no placeholder at all.  Returns the
pair (placeholder index, neighbour index). -/
def getAttachmentVector (R_group : Mol) : Except GraftError (ℕ × ℕ) :=
  match firstRAtomIdx R_group with
  | none => .error .noRAtom
  | some i =>
    if 1 < (neighborsOf R_group i).length then .error .multipleAttachmentPoints
    else
      match neighborsOf R_group i with
      | [] => .error .indexError
      | n :: _ => .ok (i, n)

/-- Models the rigid-body alignment `AlignMol(R_group, mol, atomMap)` used
at rgroup/package.py line 87 with a two-atom correspondence.  The optimal
rigid superposition carries the centroid of the mapped probe atoms onto the
centroid of the mapped reference atoms; the rotation part is omitted
(identity), which is exact whenever the two mapped segments are already
parallel and congruent, as in every concrete configuration evaluated in
this file.  `AlignMol` writes the transformed coordinates back into the
probe molecule in place; the caller therefore receives a probe whose
conformer coordinates have been overwritten. -/
def alignMol (probe ref : Mol) (map1 map2 : ℕ × ℕ) : Mol :=
  let origin : Point := ⟨0, 0, 0⟩
  let probeCentroid :=
    midpoint2 (probe.conf.getD map1.1 origin) (probe.conf.getD map2.1 origin)
  let refCentroid :=
    midpoint2 (ref.conf.getD map1.2 origin) (ref.conf.getD map2.2 origin)
  let t := ptSub refCentroid probeCentroid
  { probe with conf := probe.conf.map (fun p => ptAdd p t) }

/-- Shift both endpoints of a bond by an offset (used when forming the
disjoint union of two molecules). -/
def shiftBond (off : ℕ) (b : Bond) : Bond :=
  { b with beginAtomIdx := b.beginAtomIdx + off, endAtomIdx := b.endAtomIdx + off }

/-- Embeds `Chem.CombineMols`: disjoint union of atoms, bonds and conformer
coordinates, with the second molecule offset by the first atom count. -/
def combineMols (m1 m2 : Mol) : Mol :=
  { atoms := m1.atoms ++ m2.atoms,
    bonds := m1.bonds ++ m2.bonds.map (shiftBond m1.atoms.length),
    conf := m1.conf ++ m2.conf }

/-- Embeds `EditableMol.AddBond`. -/
def addBond (m : Mol) (i j : ℕ) (ord : ℕ) : Mol :=
  { m with bonds := m.bonds ++ [⟨i, j, ord⟩] }

/-- Renumbering of an atom index after the atom at `removed` is deleted:
indices above the removed one shift down by one. -/
def remapIdx (removed i : ℕ) : ℕ :=
  if removed < i then i - 1 else i

/-- Embeds `EditableMol.RemoveAtom`: delete the atom and its conformer
coordinate, drop every bond incident to it, and renumber all higher atom
indices down by one. -/
def removeAtom (m : Mol) (idx : ℕ) : Mol :=
  { atoms := m.atoms.eraseIdx idx,
    conf := m.conf.eraseIdx idx,
    bonds :=
      (m.bonds.filter fun b => !(b.beginAtomIdx == idx || b.endAtomIdx == idx)).map
        fun b =>
          { b with
            beginAtomIdx := remapIdx idx b.beginAtomIdx,
            endAtomIdx := remapIdx idx b.endAtomIdx } }

/-- The values produced by one call of `merge_R_group`.  `merged` and
`template` are the freshly built molecules.  Because the embedding makes
all state explicit, the record also carries the post-call states of the two
input objects: `rgroupAfter` is the R-group after `AlignMol` has run on it
(the only write to an input), and `molAfter` is the host, which the source
only ever reads (`CombineMols` and `EditableMol` copy). -/
structure MergeResult where
  merged : Mol
  template : Mol
  rgroupAfter : Mol
  molAfter : Mol
deriving DecidableEq, Repr

/-- Embeds `merge_R_group` (rgroup/package.py, lines 73-118):
resolve the attachment vector of the R-group; assert that the replaced host
atom has exactly one neighbour; align the R-group onto the host; combine
the two molecules; add the connecting bond with the order of the first bond
of the placeholder; remove the placeholder atom (at its combined index) and
then the replaced host atom; build the template as the host minus the
replaced atom.  `Chem.SanitizeMol` recomputes chemical bookkeeping without
changing the atom list, so it has no counterpart here. -/
def merge_R_group (mol R_group : Mol) (replaceIndex : ℕ) :
    Except GraftError MergeResult :=
  match getAttachmentVector R_group with
  | .error e => .error e
  | .ok (rgroup_R_atom, R_atom_neighbour) =>
    if replaceIndex < mol.atoms.length then
      match neighborsOf mol replaceIndex with
      | [replace_atom_neighbour] =>
        let aligned := alignMol R_group mol
          (R_atom_neighbour, replaceIndex) (rgroup_R_atom, replace_atom_neighbour)
        let numAtoms := mol.atoms.length
        let combined := combineMols mol aligned
        match (bondsOf R_group rgroup_R_atom).head? with
        | none => .error .indexError
        | some bond =>
          let withBond :=
            addBond combined replace_atom_neighbour (R_atom_neighbour + numAtoms)
              bond.order
          let removedR := removeAtom withBond (rgroup_R_atom + numAtoms)
          let merged := removeAtom removedR replaceIndex
          let template := removeAtom mol replaceIndex
          .ok { merged := merged, template := template,
                rgroupAfter := aligned, molAfter := mol }
      | _ => .error .replaceAtomNotTerminal
    else .error .indexError

/-! ## Conformer lifecycle: receptor optimisation (fegrow/receptor.py) -/

/-- One conformer as a coordinate list (the rdkit `Conformer` object holds
one position per atom). -/
abbrev Conf := List Point

/-- The data produced by one completed `simulation.minimizeEnergy` call for
one input conformer: the final ligand positions and the final potential
energy.  The minimiser itself is the external OpenMM engine (out of scope,
spec section 6), so its per-conformer output is taken as input here. -/
structure MinimizedConf where
  positions : List Point
  energy : ℚ
deriving DecidableEq, Repr

/-- Embeds the long-bond rejection test of `optimise_in_receptor`
(fegrow/receptor.py, lines 232-241): some bond of the molecule measures
more than 3 angstroms in the minimised conformer.  The source compares
`Distance > 3`; here the comparison is squared. -/
def hasLongBonds (bonds : List Bond) (positions : List Point) : Bool :=
  bonds.any fun b =>
    9 < dist2 (positions.getD b.beginAtomIdx ⟨0, 0, 0⟩)
      (positions.getD b.endAtomIdx ⟨0, 0, 0⟩)

/-- Embeds the per-conformer loop of `optimise_in_receptor`
(fegrow/receptor.py, lines 207-248): for each minimised conformer, skip it
entirely (`continue`) when it has a long bond, otherwise append its energy
to the energy list and add the conformer to the output molecule; the input
order is preserved. -/
def optimise_in_receptor (bonds : List Bond) (minimized : List MinimizedConf) :
    List Conf × List ℚ :=
  match minimized with
  | [] => ([], [])
  | c :: rest =>
    let tail := optimise_in_receptor bonds rest
    if hasLongBonds bonds c.positions then tail
    else (c.positions :: tail.1, c.energy :: tail.2)

/-! ## Conformer lifecycle: triage (fegrow/receptor.py `sort_conformers`) -/

/-- The minimum of a nonempty list, as `numpy.ndarray.min` computes it
over the energy array; the empty case is never reached under the
preconditions of the callers. -/
def listMin : List ℚ → ℚ
  | [] => 0
  | e :: es => es.foldl min e

/-- Embeds `sort_conformers` (fegrow/receptor.py, lines 251-284): subtract
the minimum energy from every energy, pair each energy with the conformer
at the same position, sort the pairs by energy (Python `list.sort` is
stable, as is insertion sort), keep the pairs whose normalised energy is at
most `energy_range`, and add the survivors to a fresh molecule in that
order.  `AddConformer` with `assignId=True` on the fresh molecule hands out
dense identifiers 0, 1, 2, ... in insertion order, so the output conformers
are returned here with their new identifiers attached. -/
def sort_conformers (conformers : List Conf) (energies : List ℚ)
    (energy_range : ℚ) : List (ℕ × Conf) × List ℚ :=
  let normalized := energies.map fun e => e - listMin energies
  let pairs := normalized.zip conformers
  let sortedPairs := List.insertionSort (fun a b => a.1 ≤ b.1) pairs
  let kept := sortedPairs.filter fun p => decide (p.1 ≤ energy_range)
  (kept.enum.map fun q => (q.1, q.2.2), kept.map fun p => p.1)

/-- The list of surviving (normalised energy, conformer) pairs of
`sort_conformers`, named so the theorems below can speak about it; it is
definitionally the intermediate value `kept` of `sort_conformers`. -/
def triageKept (conformers : List Conf) (energies : List ℚ)
    (energy_range : ℚ) : List (ℚ × Conf) :=
  (List.insertionSort (fun a b => a.1 ≤ b.1)
      ((energies.map fun e => e - listMin energies).zip conformers)).filter
    fun p => decide (p.1 ≤ energy_range)

/-- The part of the `RMol` state that the triage method reads and writes:
the conformer set and the optional energy list (`opt_energies` is `None`
until `optimise_in_receptor` has run). -/
structure RMolState where
  conformers : List Conf
  opt_energies : Option (List ℚ)
deriving DecidableEq, Repr

/-- The precondition error of `RMol.sort_conformers`: the `AttributeError`
raised when `opt_energies` is `None` (the spec calls it
`EnergiesNotComputed`). -/
inductive TriageError where
  | energiesNotComputed
deriving DecidableEq, Repr

/-- Embeds the method `RMol.sort_conformers` (fegrow/package.py, lines
180-220).  With zero conformers it prints a message and returns `None`
(no error); otherwise, with no energies recorded, it raises; otherwise it
delegates to `sort_conformers`, replaces its conformers with the survivors
(dense fresh identifiers) and its energies with the sorted kept energies,
and returns them. -/
def RMol_sort_conformers (st : RMolState) (energy_range : ℚ) :
    Except TriageError (Option (RMolState × List ℚ)) :=
  match st.conformers with
  | [] => .ok none
  | _ :: _ =>
    match st.opt_energies with
    | none => .error .energiesNotComputed
    | some energies =>
      let res := sort_conformers st.conformers energies energy_range
      .ok (some ({ conformers := res.1.map fun q => q.2,
                   opt_energies := some res.2 }, res.2))

/-! ## Conformer lifecycle: clash filter (fegrow/package.py) -/

/-- A conformer clashes with the receptor when some of its atoms lies
strictly within `min_dst_allowed` of some receptor atom.  The source takes
`sqrt` of the squared distance and compares with the threshold; here the
comparison is squared, which agrees for nonnegative thresholds. -/
def conf_clashes (protein_coords : List Point) (min_dst_allowed : ℚ)
    (positions : List Point) : Bool :=
  positions.any fun p =>
    protein_coords.any fun q => dist2 p q < min_dst_allowed * min_dst_allowed

/-- The exact removal decision of the loop in `remove_clashing_confs`
(fegrow/package.py, lines 308-326): the running minimum starts from the
sentinel value 999999999 and the conformer is removed at the first atom
where the running minimum falls below the threshold.  Hence a conformer is
removed exactly when it has at least one atom and either some atom is
within the threshold of the receptor, or the sentinel itself is below the
threshold. -/
def loop_removes (protein_coords : List Point) (min_dst_allowed : ℚ)
    (positions : List Point) : Bool :=
  !positions.isEmpty &&
    (conf_clashes protein_coords min_dst_allowed positions ||
      decide ((999999999 : ℚ) < min_dst_allowed))

/-- Embeds `RMol.remove_clashing_confs` (fegrow/package.py, lines
285-326): iterate over a snapshot of the conformer list and delete every
conformer the loop decides to remove; the surviving conformers are kept in
order. -/
def remove_clashing_confs (confs : List Conf) (protein_coords : List Point)
    (min_dst_allowed : ℚ) : List Conf :=
  confs.filter fun c => !loop_removes protein_coords min_dst_allowed c

/-! ## Scoring adapter (fegrow/package.py `gnina`) -/

/-- One row of the dataframe built by `RMol.gnina`: the molecule
identifier, the conformer identifier of the row, and the parsed
CNNaffinity.  The `Kd` column is a fixed monotone transform
(`10 ** (-x + 9)`) of the affinity, carries no extra information, and
does not participate in the claims, as it is not rational-valued. -/
structure GninaRow where
  molId : ℕ
  conformer : ℕ
  cnnaffinity : ℚ
deriving DecidableEq, Repr

/-- The failures of the pandas dataframe construction used by the scoring
adapter: `ValueError` (all arrays must be of the same length) when columns
of different lengths are combined, and `ValueError` (no objects to
concatenate) when `pandas.concat` receives an empty list. -/
inductive PandasError where
  | allArraysMustBeSameLength
  | noObjectsToConcatenate
deriving DecidableEq, Repr

/-- Embeds the dataframe construction at the end of `RMol.gnina`
(fegrow/package.py, lines 446-456), given the affinities parsed from the
external tool output and the conformer identifiers of the molecule.  The
ID and CNNaffinity columns have one entry per parsed affinity while the
Conformer column has one entry per conformer, so pandas raises whenever
the parsed count differs from the conformer count; otherwise each
conformer is reported under its raw conformer identifier. -/
def RMol_gnina (molId : ℕ) (conformer_ids : List ℕ) (cnnaffinities : List ℚ) :
    Except PandasError (List GninaRow) :=
  if cnnaffinities.length = conformer_ids.length then
    .ok ((conformer_ids.zip cnnaffinities).map fun p => ⟨molId, p.1, p.2⟩)
  else .error .allArraysMustBeSameLength

/-- The scoring inputs of one molecule in a list: its identifier, its
conformer identifiers, and the affinities the external tool reports for
it. -/
structure GninaSub where
  molId : ℕ
  conformer_ids : List ℕ
  cnnaffinities : List ℚ
deriving DecidableEq, Repr

/-- The per-member dataframes built by the loop of `RList.gnina`. -/
def gnina_dfs : List GninaSub → Except PandasError (List (List GninaRow))
  | [] => .ok []
  | m :: rest =>
    match RMol_gnina m.molId m.conformer_ids m.cnnaffinities with
    | .error e => .error e
    | .ok df =>
      match gnina_dfs rest with
      | .error e => .error e
      | .ok dfs => .ok (df :: dfs)

/-- Embeds `RList.gnina` (fegrow/package.py, lines 590-606): build one
dataframe per member molecule, concatenate them (`pandas.concat` fails on
an empty list), and then add one to the Conformer index column of the
concatenated frame. -/
def RList_gnina (mols : List GninaSub) : Except PandasError (List GninaRow) :=
  match gnina_dfs mols with
  | .error e => .error e
  | .ok dfs =>
    if dfs.isEmpty then .error .noObjectsToConcatenate
    else .ok (dfs.flatten.map fun r => { r with conformer := r.conformer + 1 })

/-! ## Component selection (builder, modelled from the spec) -/

/-- Modelled from the spec: the component-selection step invoked by
`build_molecules_with_rdkit` (fegrow/builder.py), whose source file is not
among the provided sources — only its callers and its tests are.  Spec
section 4.3: given the post-removal connected components and an optional
explicit keep atom index, return the component containing that atom index
when one is given, and otherwise the component with the most atoms, ties
broken by the first-encountered component in the original atom order. -/
def selectComponent (components : List (List ℕ)) (keep : Option ℕ) :
    Option (List ℕ) :=
  match keep with
  | some k => components.find? fun comp => comp.contains k
  | none =>
    match components with
    | [] => none
    | c :: rest =>
      some (rest.foldl (fun best d => if best.length < d.length then d else best) c)

/-- A two-atom host used in the concrete evaluations: a carbon at
`(6,0,0)` bonded to a terminal hydrogen at `(5,0,0)`. -/
def exHost : Mol :=
  { atoms := [⟨6⟩, ⟨1⟩],
    bonds := [⟨0, 1, 1⟩],
    conf := [⟨6, 0, 0⟩, ⟨5, 0, 0⟩] }

/-- A two-atom fragment used in the concrete evaluations: the placeholder
atom at `(1,0,0)` bonded to a hydrogen at `(0,0,0)`. -/
def exFrag : Mol :=
  { atoms := [⟨0⟩, ⟨1⟩],
    bonds := [⟨0, 1, 1⟩],
    conf := [⟨1, 0, 0⟩, ⟨0, 0, 0⟩] }

/-- A fragment with two placeholder atoms, as the linker library provides
(for example `R1NC(R2)=O`): placeholder, carbon, placeholder in a chain. -/
def exFrag2R : Mol :=
  { atoms := [⟨0⟩, ⟨6⟩, ⟨0⟩],
    bonds := [⟨0, 1, 1⟩, ⟨1, 2, 1⟩],
    conf := [⟨0, 0, 0⟩, ⟨1, 0, 0⟩, ⟨2, 0, 0⟩] }

/-- Two single-atom conformers used in the concrete triage evaluation. -/
def exTriageConfs : List Conf := [[⟨0, 0, 0⟩], [⟨1, 0, 0⟩]]

/-- A one-atom receptor used in the concrete clash-filter evaluation. -/
def exProt : List Point := [⟨0, 0, 0⟩]

/-- Two single-atom conformers: one sits on the receptor atom (a clash at
distance 0) and one sits 5 angstroms away. -/
def exClashConfs : List Conf := [[⟨0, 0, 0⟩], [⟨5, 0, 0⟩]]

/-- A concrete scoring input: molecule 7 with two conformers with raw
identifiers 0 and 1 and one parsed affinity per conformer. -/
def exSub : GninaSub :=
  { molId := 7, conformer_ids := [0, 1], cnnaffinities := [1/2, 3/2] }

end FEgrow

deriving instance DecidableEq for Except

unseal Rat.add Rat.sub Rat.mul Rat.inv

namespace FEgrow

lemma alignMol_atoms (probe ref : Mol) (m1 m2 : ℕ × ℕ) :
    (alignMol probe ref m1 m2).atoms = probe.atoms := rfl

lemma alignMol_bonds (probe ref : Mol) (m1 m2 : ℕ × ℕ) :
    (alignMol probe ref m1 m2).bonds = probe.bonds := rfl

lemma firstRAtomIdx_lt (m : Mol) (i : ℕ) (h : firstRAtomIdx m = some i) :
    i < m.atoms.length := by
  have := List.mem_of_find?_eq_some h
  exact List.mem_range.mp this

/-- If atom `i` has a neighbour then it has an incident bond, so indexing
the first element of `GetBonds` cannot fail. -/
lemma bondsOf_ne_nil (m : Mol) (i : ℕ) (h : neighborsOf m i ≠ []) :
    bondsOf m i ≠ [] := by
  intro hnil
  apply h
  rw [neighborsOf, List.filterMap_eq_nil_iff]
  intro b hb
  have hkeep := (List.filter_eq_nil_iff.mp hnil) b hb
  by_cases h1 : b.beginAtomIdx = i
  · exact absurd (by simp [h1]) hkeep
  · by_cases h2 : b.endAtomIdx = i
    · exact absurd (by simp [h2]) hkeep
    · simp [h1, h2]

/-- Whenever the graft input is valid, `merge_R_group` reduces along its
success path; this lemma names the resulting record. -/
lemma merge_R_group_ok (mol R_group : Mol) (replaceIndex i n y : ℕ) (b : Bond)
    (bs : List Bond)
    (hfirst : firstRAtomIdx R_group = some i)
    (hnb : neighborsOf R_group i = [n])
    (hrep : replaceIndex < mol.atoms.length)
    (hterm : neighborsOf mol replaceIndex = [y])
    (hbs : bondsOf R_group i = b :: bs) :
    merge_R_group mol R_group replaceIndex =
      .ok { merged :=
              removeAtom
                (removeAtom
                  (addBond (combineMols mol
                      (alignMol R_group mol (n, replaceIndex) (i, y)))
                    y (n + mol.atoms.length) b.order)
                  (i + mol.atoms.length))
                replaceIndex,
            template := removeAtom mol replaceIndex,
            rgroupAfter := alignMol R_group mol (n, replaceIndex) (i, y),
            molAfter := mol } := by
  have hga : getAttachmentVector R_group = .ok (i, n) := by
    simp [getAttachmentVector, hfirst, hnb]
  simp only [merge_R_group, hga, hrep, if_true, hterm, hbs, List.head?_cons]

/-- C1.  For every valid graft input — a fragment whose single placeholder
atom has a single bonded neighbour, a host, and an in-range terminal
replacement-site index — `merge_R_group` succeeds, and the merged molecule
has the host atom count plus the fragment atom count minus 2: the fragment
placeholder atom and the replaced host atom are both removed. -/
theorem merge_R_group_atom_count (mol R_group : Mol) (replaceIndex i n : ℕ)
    (_hcount : R_group.atoms.countP (fun a => a.atomicNum == 0) = 1)
    (hfirst : firstRAtomIdx R_group = some i)
    (hnb : neighborsOf R_group i = [n])
    (hrep : replaceIndex < mol.atoms.length)
    (hterm : (neighborsOf mol replaceIndex).length = 1) :
    ∃ res, merge_R_group mol R_group replaceIndex = .ok res ∧
      res.merged.atoms.length = mol.atoms.length + R_group.atoms.length - 2 := by
  obtain ⟨y, hy⟩ := List.length_eq_one.mp hterm
  obtain ⟨b, bs, hbs⟩ : ∃ b bs, bondsOf R_group i = b :: bs := by
    cases hb : bondsOf R_group i with
    | nil =>
      exact absurd hb (bondsOf_ne_nil R_group i (by rw [hnb]; simp))
    | cons b bs => exact ⟨b, bs, rfl⟩
  refine ⟨_, merge_R_group_ok mol R_group replaceIndex i n y b bs
    hfirst hnb hrep hy hbs, ?_⟩
  have hi : i < R_group.atoms.length := firstRAtomIdx_lt _ _ hfirst
  show (((mol.atoms ++ (alignMol R_group mol (n, replaceIndex) (i, y)).atoms).eraseIdx
      (i + mol.atoms.length)).eraseIdx replaceIndex).length =
    mol.atoms.length + R_group.atoms.length - 2
  rw [alignMol_atoms]
  have hlen1 : (mol.atoms ++ R_group.atoms).length
      = mol.atoms.length + R_group.atoms.length := List.length_append _ _
  have he1 : ((mol.atoms ++ R_group.atoms).eraseIdx (i + mol.atoms.length)).length
      = (mol.atoms ++ R_group.atoms).length - 1 :=
    List.length_eraseIdx_of_lt (by omega)
  have he2 : (((mol.atoms ++ R_group.atoms).eraseIdx (i + mol.atoms.length)).eraseIdx
      replaceIndex).length
      = ((mol.atoms ++ R_group.atoms).eraseIdx (i + mol.atoms.length)).length - 1 :=
    List.length_eraseIdx_of_lt (by omega)
  omega

/-- Witness for C1: grafting the two-atom fragment onto the two-atom host
at the terminal atom 1 yields a merged molecule with 2 + 2 - 2 = 2 atoms. -/
theorem merge_R_group_atom_count_witness :
    (merge_R_group exHost exFrag 1).toOption.map (fun r => r.merged.atoms.length)
      = some 2 := by
  obtain ⟨res, hok, hlen⟩ := merge_R_group_atom_count exHost exFrag 1 0 1
    (by decide) (by decide) (by decide) (by decide) (by decide)
  rw [hok]
  simpa [Except.toOption] using hlen

/-- C4, counterexample: the claim says the attachment-point resolver fails
when the fragment has more than one placeholder atom, but on a fragment
with two placeholder atoms (as every linker in the bundled library has) the
scan returns at the first placeholder without any error. -/
theorem getAttachmentVector_two_placeholders :
    exFrag2R.atoms.countP (fun a => a.atomicNum == 0) = 2 ∧
      getAttachmentVector exFrag2R = .ok (0, 1) :=
  ⟨by decide, by decide⟩

/-- C4, amended: the resolver succeeds exactly when the fragment has a
first placeholder atom (atomic number 0) and that atom has exactly one
bonded neighbour; it then returns that placeholder with its neighbour, and
any further placeholder atoms are ignored.  In every other case (no
placeholder at all, or a first placeholder with zero or several
neighbours) it fails. -/
theorem getAttachmentVector_ok_iff (R_group : Mol) (i n : ℕ) :
    getAttachmentVector R_group = .ok (i, n) ↔
      firstRAtomIdx R_group = some i ∧ neighborsOf R_group i = [n] := by
  constructor
  · intro h
    unfold getAttachmentVector at h
    split at h
    · exact Except.noConfusion h
    rename_i j hf
    split at h
    · exact Except.noConfusion h
    rename_i hlen
    split at h
    · exact Except.noConfusion h
    rename_i m rest hn
    simp only [Except.ok.injEq, Prod.mk.injEq] at h
    obtain ⟨hij, hnm⟩ := h
    subst hij
    subst hnm
    rw [hn] at hlen
    have hrest : rest = [] := by
      simp only [List.length_cons, not_lt] at hlen
      exact List.length_eq_zero.mp (by omega)
    subst hrest
    exact ⟨hf, hn⟩
  · rintro ⟨hf, hn⟩
    simp [getAttachmentVector, hf, hn]

/-- C7, counterexample: the graft does mutate one of its inputs.  On the
concrete host and fragment below, `AlignMol` overwrites the fragment
conformer coordinates in place (translating the fragment onto the host
replacement site), so the fragment coordinates after the call differ from
the coordinates before it. -/
theorem merge_R_group_mutates_fragment :
    (merge_R_group exHost exFrag 1).toOption.map (fun r => r.rgroupAfter.conf)
        = some [⟨6, 0, 0⟩, ⟨5, 0, 0⟩] ∧
      exFrag.conf = [⟨1, 0, 0⟩, ⟨0, 0, 0⟩] ∧
      (merge_R_group exHost exFrag 1).toOption.map (fun r => r.rgroupAfter.conf)
        ≠ some exFrag.conf :=
  ⟨by decide, by decide, by decide⟩

/-- C7, amended: every successful graft leaves the host molecule unchanged
(the source only reads it: `CombineMols` and `EditableMol` operate on
copies) and leaves the fragment atom and bond lists unchanged, but the
fragment conformer coordinates are overwritten in place by the alignment
step; no deep copy of the fragment is taken before `AlignMol` runs. -/
theorem merge_R_group_frame (mol R_group : Mol) (replaceIndex : ℕ)
    (res : MergeResult)
    (h : merge_R_group mol R_group replaceIndex = .ok res) :
    res.molAfter = mol ∧ res.rgroupAfter.atoms = R_group.atoms ∧
      res.rgroupAfter.bonds = R_group.bonds ∧
      res.rgroupAfter.conf.length = R_group.conf.length := by
  unfold merge_R_group at h
  split at h
  all_goals try exact Except.noConfusion h
  split at h
  all_goals try exact Except.noConfusion h
  split at h
  all_goals try exact Except.noConfusion h
  split at h
  all_goals try exact Except.noConfusion h
  cases h
  refine ⟨rfl, rfl, rfl, ?_⟩
  simp [alignMol]

/-- Witness for C7: on the concrete graft above the host state after the
call is the host state before it. -/
theorem merge_R_group_frame_witness :
    (merge_R_group exHost exFrag 1).toOption.map (fun r => r.molAfter)
      = some exHost := by
  cases hm : merge_R_group exHost exFrag 1 with
  | error e =>
    have hok : (merge_R_group exHost exFrag 1).toOption.isSome = true := by decide
    rw [hm] at hok
    simp [Except.toOption] at hok
  | ok r =>
    have h := (merge_R_group_frame exHost exFrag 1 r hm).1
    simp [Except.toOption, h]

/-- C2.  The per-conformer minimisation loop keeps exactly the minimised
conformers with no bond longer than 3 angstroms, in their input order; the
output positions and the output energies are the two parallel projections
of that filtered list, so the energy list length equals the conformer
count, every kept conformer has exactly one appended energy in the same
order, and no kept conformer contains a long bond. -/
theorem optimise_in_receptor_spec (bonds : List Bond)
    (minimized : List MinimizedConf) :
    (optimise_in_receptor bonds minimized).1 =
        ((minimized.filter fun c => !hasLongBonds bonds c.positions).map
          fun c => c.positions) ∧
      (optimise_in_receptor bonds minimized).2 =
        ((minimized.filter fun c => !hasLongBonds bonds c.positions).map
          fun c => c.energy) ∧
      (optimise_in_receptor bonds minimized).1.length =
        (optimise_in_receptor bonds minimized).2.length ∧
      ∀ p ∈ (optimise_in_receptor bonds minimized).1,
        hasLongBonds bonds p = false := by
  induction minimized with
  | nil => simp [optimise_in_receptor]
  | cons c rest ih =>
    obtain ⟨ih1, ih2, ih3, ih4⟩ := ih
    cases hc : hasLongBonds bonds c.positions with
    | true =>
      refine ⟨?_, ?_, ?_, ?_⟩
      · simp [optimise_in_receptor, hc, List.filter_cons, ih1]
      · simp [optimise_in_receptor, hc, List.filter_cons, ih2]
      · simp [optimise_in_receptor, hc, ih3]
      · intro p hp
        simp only [optimise_in_receptor, hc, if_true] at hp
        exact ih4 p hp
    | false =>
      refine ⟨?_, ?_, ?_, ?_⟩
      · simp [optimise_in_receptor, hc, List.filter_cons, ih1]
      · simp [optimise_in_receptor, hc, List.filter_cons, ih2]
      · simp [optimise_in_receptor, hc, ih3]
      · intro p hp
        simp only [optimise_in_receptor, hc, if_false, Bool.false_eq_true,
          ite_false, List.mem_cons] at hp
        rcases hp with hp | hp
        · rw [hp]; exact hc
        · exact ih4 p hp

lemma foldl_min_le_init (es : List ℚ) : ∀ a : ℚ, es.foldl min a ≤ a := by
  induction es with
  | nil => intro a; simp
  | cons e tl ih =>
    intro a
    exact le_trans (ih (min a e)) (min_le_left a e)

lemma foldl_min_le_mem (es : List ℚ) : ∀ a : ℚ, ∀ x ∈ es, es.foldl min a ≤ x := by
  induction es with
  | nil => simp
  | cons e tl ih =>
    intro a x hx
    rcases List.mem_cons.mp hx with h | h
    · subst h
      exact le_trans (foldl_min_le_init tl (min a x)) (min_le_right a x)
    · exact ih (min a e) x h

lemma foldl_min_mem (es : List ℚ) :
    ∀ a : ℚ, es.foldl min a = a ∨ es.foldl min a ∈ es := by
  induction es with
  | nil =>
    intro a
    left
    rfl
  | cons e tl ih =>
    intro a
    rcases ih (min a e) with h | h
    · rcases min_choice a e with hm | hm
      · left
        show tl.foldl min (min a e) = a
        rw [h, hm]
      · right
        show tl.foldl min (min a e) ∈ e :: tl
        rw [h, hm]
        exact List.mem_cons_self e tl
    · right
      exact List.mem_cons_of_mem e h

/-- The minimum of a nonempty list is no larger than any of its members. -/
lemma listMin_le (l : List ℚ) : ∀ x ∈ l, listMin l ≤ x := by
  cases l with
  | nil => simp
  | cons e es =>
    intro x hx
    rcases List.mem_cons.mp hx with h | h
    · subst h
      exact foldl_min_le_init es x
    · exact foldl_min_le_mem es e x h

/-- The minimum of a nonempty list is one of its members. -/
lemma listMin_mem (l : List ℚ) (h : l ≠ []) : listMin l ∈ l := by
  cases l with
  | nil => exact absurd rfl h
  | cons e es =>
    rcases foldl_min_mem es e with hm | hm
    · show es.foldl min e ∈ e :: es
      rw [hm]
      exact List.mem_cons_self e es
    · exact List.mem_cons_of_mem e hm

/-- Filtering a zip on the first component and projecting back gives the
filtered first list, provided the second list is long enough. -/
lemma map_fst_filter_zip (f : ℚ → Bool) :
    ∀ (a : List ℚ) (b : List Conf), a.length ≤ b.length →
      (((a.zip b).filter fun p => f p.1).map Prod.fst) = a.filter f := by
  intro a
  induction a with
  | nil =>
    intro b _
    simp
  | cons x xs ih =>
    intro b h
    cases b with
    | nil => simp at h
    | cons y ys =>
      simp only [List.zip_cons_cons, List.filter_cons]
      cases hf : f x with
      | true => simpa using ih ys (by simpa using h)
      | false => simpa using ih ys (by simpa using h)

/-- Comparison of energy-conformer pairs by energy is total. -/
instance energyPairLeIsTotal :
    IsTotal (ℚ × Conf) (fun a b => a.1 ≤ b.1) :=
  ⟨fun a b => le_total a.1 b.1⟩

/-- Comparison of energy-conformer pairs by energy is transitive. -/
instance energyPairLeIsTrans :
    IsTrans (ℚ × Conf) (fun a b => a.1 ≤ b.1) :=
  ⟨fun _ _ _ hab hbc => le_trans hab hbc⟩

lemma sort_conformers_fst (conformers : List Conf) (energies : List ℚ)
    (energy_range : ℚ) :
    (sort_conformers conformers energies energy_range).1 =
      (triageKept conformers energies energy_range).enum.map
        fun q => (q.1, q.2.2) := rfl

lemma sort_conformers_snd (conformers : List Conf) (energies : List ℚ)
    (energy_range : ℚ) :
    (sort_conformers conformers energies energy_range).2 =
      (triageKept conformers energies energy_range).map fun p => p.1 := rfl

/-- The returned energies are a permutation of the normalised energies that
lie inside the window. -/
lemma triageKept_map_fst_perm (conformers : List Conf) (energies : List ℚ)
    (energy_range : ℚ) (hlen : energies.length = conformers.length) :
    (((triageKept conformers energies energy_range).map fun p => p.1).Perm
      ((energies.map fun e => e - listMin energies).filter
        fun e => decide (e ≤ energy_range))) := by
  have hp1 := List.perm_insertionSort (fun a b : ℚ × Conf => a.1 ≤ b.1)
    ((energies.map fun e => e - listMin energies).zip conformers)
  have hp2 := hp1.filter fun p : ℚ × Conf => decide (p.1 ≤ energy_range)
  have hp3 := hp2.map fun p : ℚ × Conf => p.1
  refine hp3.trans ?_
  have hle : (energies.map fun e => e - listMin energies).length
      ≤ conformers.length := by
    rw [List.length_map]
    omega
  have := map_fst_filter_zip (fun e => decide (e ≤ energy_range))
    (energies.map fun e => e - listMin energies) conformers hle
  exact this ▸ List.Perm.refl _

/-- The returned energies are sorted ascending. -/
lemma triageKept_sorted (conformers : List Conf) (energies : List ℚ)
    (energy_range : ℚ) :
    List.Sorted (fun a b : ℚ => a ≤ b)
      ((triageKept conformers energies energy_range).map fun p => p.1) := by
  have hs := List.sorted_insertionSort (fun a b : ℚ × Conf => a.1 ≤ b.1)
    ((energies.map fun e => e - listMin energies).zip conformers)
  have hk : List.Sorted (fun a b : ℚ × Conf => a.1 ≤ b.1)
      (triageKept conformers energies energy_range) :=
    hs.filter _
  exact List.pairwise_map.mpr hk

lemma enum_reindex_fst (L : List (ℚ × Conf)) :
    ((L.enum.map fun q => (q.1, q.2.2)).map Prod.fst) = List.range L.length := by
  rw [List.map_map]
  have hcomp : (Prod.fst ∘ fun q : ℕ × (ℚ × Conf) => (q.1, q.2.2)) = Prod.fst :=
    rfl
  rw [hcomp, List.enum_map_fst]

/-- C3.  For a molecule with optimised conformers and a parallel nonempty
energy list, the triage returns the energies normalised to the minimum
(its first and smallest returned energy is 0), keeps exactly the
conformers whose normalised energy lies within the window, returns them
sorted ascending by normalised energy, assigns dense conformer identities
0, 1, 2, ... in that order, and returns an energy list of the same length
as the conformer list. -/
theorem sort_conformers_spec (conformers : List Conf) (energies : List ℚ)
    (energy_range : ℚ) (hne : energies ≠ [])
    (hlen : energies.length = conformers.length) (hw : 0 ≤ energy_range) :
    ((sort_conformers conformers energies energy_range).2.head? = some 0) ∧
      (∀ e ∈ (sort_conformers conformers energies energy_range).2,
        0 ≤ e ∧ e ≤ energy_range) ∧
      List.Sorted (fun a b : ℚ => a ≤ b)
        (sort_conformers conformers energies energy_range).2 ∧
      ((sort_conformers conformers energies energy_range).2).Perm
        ((energies.map fun e => e - listMin energies).filter
          fun e => decide (e ≤ energy_range)) ∧
      ((sort_conformers conformers energies energy_range).1.map Prod.fst =
        List.range (sort_conformers conformers energies energy_range).1.length) ∧
      (sort_conformers conformers energies energy_range).1.length =
        (sort_conformers conformers energies energy_range).2.length := by
  rw [sort_conformers_fst, sort_conformers_snd]
  have hperm := triageKept_map_fst_perm conformers energies energy_range hlen
  have hsorted := triageKept_sorted conformers energies energy_range
  have hmem : ∀ e ∈ (triageKept conformers energies energy_range).map
      fun p : ℚ × Conf => p.1, 0 ≤ e ∧ e ≤ energy_range := by
    intro e he
    have := hperm.mem_iff.mp he
    obtain ⟨heN, hef⟩ := List.mem_filter.mp this
    obtain ⟨x, hx, hxe⟩ := List.mem_map.mp heN
    constructor
    · rw [← hxe]
      exact sub_nonneg.mpr (listMin_le energies x hx)
    · exact of_decide_eq_true hef
  have hzero : (0 : ℚ) ∈ (triageKept conformers energies energy_range).map
      fun p : ℚ × Conf => p.1 := by
    apply hperm.mem_iff.mpr
    apply List.mem_filter.mpr
    constructor
    · have := List.mem_map_of_mem (fun e => e - listMin energies)
        (listMin_mem energies hne)
      simpa [sub_self] using this
    · simpa using hw
  refine ⟨?_, hmem, hsorted, hperm,
    by simpa using enum_reindex_fst (triageKept conformers energies energy_range),
    by simp⟩
  cases houtEs : (triageKept conformers energies energy_range).map
      fun p : ℚ × Conf => p.1 with
  | nil =>
    rw [houtEs] at hzero
    exact absurd hzero (List.not_mem_nil 0)
  | cons a t =>
    rw [houtEs] at hzero hsorted hmem
    have ha : a = 0 := by
      rcases List.mem_cons.mp hzero with h | h
      · exact h.symm
      · exact le_antisymm (List.rel_of_sorted_cons hsorted 0 h)
          (hmem a (List.mem_cons_self a t)).1
    rw [ha]
    rfl

/-- Witness for C3: on two conformers with energies 3 and 1 and window 5
the returned energy list starts with 0 and the conformer and energy lists
have equal length. -/
theorem sort_conformers_spec_witness :
    (sort_conformers exTriageConfs [3, 1] 5).2.head? = some 0 ∧
      (sort_conformers exTriageConfs [3, 1] 5).1.length =
        (sort_conformers exTriageConfs [3, 1] 5).2.length := by
  have h := sort_conformers_spec exTriageConfs [3, 1] 5 (by decide) (by decide)
    (by decide)
  exact ⟨h.1, h.2.2.2.2.2⟩

/-- C8, counterexample: on a molecule with zero conformers and no recorded
energies, the triage method returns `None` after printing a message — it
does not raise the energies-not-computed error, contradicting the claim
that it never silently returns in the no-energies state. -/
theorem RMol_sort_conformers_no_confs_no_error :
    RMol_sort_conformers { conformers := [], opt_energies := none } 5 = .ok none ∧
      RMol_sort_conformers { conformers := [], opt_energies := none } 5 ≠
        .error .energiesNotComputed :=
  ⟨rfl, by decide⟩

/-- C8, amended: on every molecule that has at least one conformer but no
recorded energies, the triage method raises the energies-not-computed
error; with zero conformers it instead returns `None` without raising,
whatever the energy state. -/
theorem RMol_sort_conformers_raises (st : RMolState) (energy_range : ℚ)
    (hconfs : st.conformers ≠ []) (hen : st.opt_energies = none) :
    RMol_sort_conformers st energy_range = .error .energiesNotComputed := by
  unfold RMol_sort_conformers
  split
  · rename_i heq
    exact absurd heq hconfs
  · rw [hen]

/-- Witness for C8: a molecule with one conformer and no energies makes
the triage method raise. -/
theorem RMol_sort_conformers_raises_witness :
    RMol_sort_conformers { conformers := [[⟨0, 0, 0⟩]], opt_energies := none } 5 =
      .error .energiesNotComputed :=
  RMol_sort_conformers_raises _ 5 (by decide) rfl

lemma filter_idem {α : Type} (p : α → Bool) (l : List α) :
    (l.filter p).filter p = l.filter p := by
  induction l with
  | nil => rfl
  | cons a l ih =>
    cases hp : p a with
    | true => simp [List.filter_cons, hp, ih]
    | false => simp [List.filter_cons, hp, ih]

/-- C5.  After the clash filter runs, no remaining conformer has any atom
strictly within the threshold of any receptor atom, and running the filter
a second time with the same threshold removes nothing.  The hypotheses
match the conditions under which the source runs without an exception: a
nonnegative threshold (so the squared comparison agrees with the
square-root comparison of the source) and a nonempty receptor coordinate
set (`numpy.min` of an empty array raises). -/
theorem remove_clashing_confs_spec (confs : List Conf)
    (protein_coords : List Point) (min_dst_allowed : ℚ)
    (_hthr : 0 ≤ min_dst_allowed) (_hprot : protein_coords ≠ []) :
    (∀ c ∈ remove_clashing_confs confs protein_coords min_dst_allowed,
      conf_clashes protein_coords min_dst_allowed c = false) ∧
      remove_clashing_confs
          (remove_clashing_confs confs protein_coords min_dst_allowed)
          protein_coords min_dst_allowed =
        remove_clashing_confs confs protein_coords min_dst_allowed := by
  constructor
  · intro c hc
    have hkeep := (List.mem_filter.mp hc).2
    cases c with
    | nil => rfl
    | cons p ps =>
      simp only [Bool.not_eq_eq_eq_not, Bool.not_true] at hkeep
      unfold loop_removes at hkeep
      simp only [List.isEmpty_cons, Bool.not_false, Bool.true_and,
        Bool.or_eq_false_iff] at hkeep
      exact hkeep.1
  · exact filter_idem _ _

/-- Witness for C5: with a one-atom receptor at the origin, a conformer on
the receptor atom, a conformer 5 angstroms away and threshold 1, the second
filter pass removes nothing, and the first pass keeps exactly the distant
conformer. -/
theorem remove_clashing_confs_spec_witness :
    remove_clashing_confs
        (remove_clashing_confs exClashConfs exProt 1) exProt 1 =
      remove_clashing_confs exClashConfs exProt 1 ∧
    remove_clashing_confs exClashConfs exProt 1 = [[⟨5, 0, 0⟩]] :=
  ⟨(remove_clashing_confs_spec exClashConfs exProt 1 (by decide) (by decide)).2,
    by decide⟩

/-- C9.  Whenever the number of affinities parsed from the external tool
output differs from the number of conformers submitted, the scoring
adapter fails with the length-mismatch error (the pandas `ValueError`
the spec names `ScorerOutputMismatch`) instead of returning a partial or
misaligned dataframe. -/
theorem RMol_gnina_mismatch (molId : ℕ) (conformer_ids : List ℕ)
    (cnnaffinities : List ℚ)
    (h : cnnaffinities.length ≠ conformer_ids.length) :
    RMol_gnina molId conformer_ids cnnaffinities =
      .error .allArraysMustBeSameLength := by
  unfold RMol_gnina
  rw [if_neg h]

/-- Witness for C9: two conformers but a single parsed affinity make the
adapter fail. -/
theorem RMol_gnina_mismatch_witness :
    RMol_gnina 0 [0, 1] [7/2] = .error .allArraysMustBeSameLength :=
  RMol_gnina_mismatch 0 [0, 1] [7/2] (by decide)

lemma RMol_gnina_conformers (molId : ℕ) (ids : List ℕ) (affs : List ℚ)
    (rws : List GninaRow) (h : RMol_gnina molId ids affs = .ok rws) :
    rws.map (fun r => r.conformer) = ids := by
  unfold RMol_gnina at h
  by_cases hlen : affs.length = ids.length
  · rw [if_pos hlen] at h
    cases h
    rw [List.map_map]
    have hcomp : ((fun r : GninaRow => r.conformer) ∘
        fun p : ℕ × ℚ => (⟨molId, p.1, p.2⟩ : GninaRow)) = Prod.fst := rfl
    rw [hcomp]
    exact List.map_fst_zip ids affs (le_of_eq hlen.symm)
  · rw [if_neg hlen] at h
    exact Except.noConfusion h

lemma gnina_dfs_conformers (mols : List GninaSub) :
    ∀ dfs : List (List GninaRow), gnina_dfs mols = .ok dfs →
      dfs.flatten.map (fun r => r.conformer) =
        mols.flatMap fun m => m.conformer_ids := by
  induction mols with
  | nil =>
    intro dfs h
    cases h
    rfl
  | cons m rest ih =>
    intro dfs h
    unfold gnina_dfs at h
    cases hm : RMol_gnina m.molId m.conformer_ids m.cnnaffinities with
    | error e =>
      rw [hm] at h
      exact Except.noConfusion h
    | ok df =>
      rw [hm] at h
      cases hr : gnina_dfs rest with
      | error e =>
        rw [hr] at h
        exact Except.noConfusion h
      | ok dfs2 =>
        rw [hr] at h
        cases h
        rw [List.flatten_cons, List.map_append, List.flatMap_cons,
          RMol_gnina_conformers m.molId m.conformer_ids m.cnnaffinities df hm,
          ih dfs2 hr]

/-- C10.  The list interface and the single-molecule interface number the
same conformers differently: whenever scoring a nonempty list succeeds,
the returned rows carry each raw conformer identifier plus one (a 1-based
Conformer index), whereas a single-molecule scoring returns the raw
0-based conformer identifiers unchanged. -/
theorem RList_gnina_conformer_numbering :
    (∀ (mols : List GninaSub) (rows : List GninaRow), mols ≠ [] →
      RList_gnina mols = .ok rows →
      rows.map (fun r => r.conformer) =
        (mols.flatMap fun m => m.conformer_ids).map fun i => i + 1) ∧
      ∀ (molId : ℕ) (ids : List ℕ) (affs : List ℚ) (rws : List GninaRow),
        RMol_gnina molId ids affs = .ok rws →
        rws.map (fun r => r.conformer) = ids := by
  constructor
  · intro mols rows _hne h
    unfold RList_gnina at h
    split at h
    · exact Except.noConfusion h
    rename_i dfs hd
    split at h
    · exact Except.noConfusion h
    cases h
    rw [List.map_map, ← gnina_dfs_conformers mols dfs hd, List.map_map]
    rfl
  · exact RMol_gnina_conformers

/-- Witness for C10: molecule 7 with conformers 0 and 1 is reported with
Conformer indices 1 and 2 through the list interface but 0 and 1 through
the single-molecule interface. -/
theorem RList_gnina_conformer_numbering_witness :
    (RList_gnina [exSub]).toOption.map (fun rows => rows.map fun r => r.conformer)
        = some [1, 2] ∧
      (RMol_gnina 7 [0, 1] [1/2, 3/2]).toOption.map
        (fun rws => rws.map fun r => r.conformer) = some [0, 1] := by
  constructor
  · cases hm : RList_gnina [exSub] with
    | error e =>
      have hok : (RList_gnina [exSub]).toOption.isSome = true := by decide
      rw [hm] at hok
      simp [Except.toOption] at hok
    | ok rows =>
      have h := RList_gnina_conformer_numbering.1 [exSub] rows (by decide) hm
      show some (rows.map fun r => r.conformer) = some [1, 2]
      rw [h]
      rfl
  · cases hm : RMol_gnina 7 [0, 1] [1/2, 3/2] with
    | error e =>
      have hok : (RMol_gnina 7 [0, 1] [1/2, 3/2]).toOption.isSome = true := by
        decide
      rw [hm] at hok
      simp [Except.toOption] at hok
    | ok rws =>
      have h := RList_gnina_conformer_numbering.2 7 [0, 1] [1/2, 3/2] rws hm
      show some (rws.map fun r => r.conformer) = some [0, 1]
      rw [h]

lemma foldl_argmax_spec (rest : List (List ℕ)) :
    ∀ c : List ℕ,
      (rest.foldl (fun best d => if best.length < d.length then d else best) c = c ∨
        rest.foldl (fun best d => if best.length < d.length then d else best) c
          ∈ rest) ∧
      c.length ≤
        (rest.foldl (fun best d => if best.length < d.length then d else best)
          c).length ∧
      ∀ d ∈ rest, d.length ≤
        (rest.foldl (fun best d => if best.length < d.length then d else best)
          c).length := by
  induction rest with
  | nil =>
    intro c
    exact ⟨Or.inl rfl, le_refl _, by simp⟩
  | cons d ds ih =>
    intro c
    simp only [List.foldl_cons]
    obtain ⟨ihmem, ihinit, ihall⟩ := ih (if c.length < d.length then d else c)
    have hinit : c.length ≤ (if c.length < d.length then d else c).length ∧
        d.length ≤ (if c.length < d.length then d else c).length := by
      by_cases hcd : c.length < d.length
      · rw [if_pos hcd]
        exact ⟨le_of_lt hcd, le_refl _⟩
      · rw [if_neg hcd]
        exact ⟨le_refl _, le_of_not_lt hcd⟩
    refine ⟨?_, le_trans hinit.1 ihinit, ?_⟩
    · rcases ihmem with hm | hm
      · by_cases hcd : c.length < d.length
        · right
          rw [hm, if_pos hcd]
          exact List.mem_cons_self d ds
        · left
          rw [if_neg hcd] at hm
          rw [if_neg hcd]
          exact hm
      · right
        exact List.mem_cons_of_mem d hm
    · intro e he
      rcases List.mem_cons.mp he with h | h
      · subst h
        exact le_trans hinit.2 ihinit
      · exact ihall e h

/-- C6.  Component selection after a graft that splits the host: when an
explicit keep index is given and some component contains it, the selected
component contains that index; when no keep index is given and at least
one component exists, the selected component is one of the components and
has the maximal atom count.  `selectComponent` is modelled from the spec
because the builder module implementing it is not among the provided
sources. -/
theorem selectComponent_spec (components : List (List ℕ)) (keep : Option ℕ) :
    (∀ k, keep = some k → (∃ comp ∈ components, k ∈ comp) →
      ∃ comp, selectComponent components keep = some comp ∧ k ∈ comp) ∧
      (keep = none → components ≠ [] →
        ∃ comp, selectComponent components keep = some comp ∧
          comp ∈ components ∧ ∀ d ∈ components, d.length ≤ comp.length) := by
  constructor
  · rintro k rfl ⟨comp, hcmem, hkmem⟩
    have hfind : (components.find? fun c => c.contains k).isSome := by
      apply List.find?_isSome.mpr
      exact ⟨comp, hcmem, by simpa [List.contains] using List.elem_iff.mpr hkmem⟩
    obtain ⟨x, hx⟩ := Option.isSome_iff_exists.mp hfind
    refine ⟨x, hx, ?_⟩
    have := List.find?_some hx
    simpa [List.contains, List.elem_iff] using this
  · rintro rfl hne
    cases components with
    | nil => exact absurd rfl hne
    | cons c rest =>
      obtain ⟨hmem, hinit, hall⟩ := foldl_argmax_spec rest c
      refine ⟨_, rfl, ?_, ?_⟩
      · rcases hmem with h | h
        · rw [h]
          exact List.mem_cons_self c rest
        · exact List.mem_cons_of_mem c h
      · intro d hd
        rcases List.mem_cons.mp hd with h | h
        · subst h
          exact hinit
        · exact hall d h

/-- Witness for C6: with components `[0]` and `[1, 2, 3]`, keeping index 0
selects the component containing 0, and with no keep index the selected
component has at least the size of the larger component. -/
theorem selectComponent_spec_witness :
    0 ∈ (selectComponent [[0], [1, 2, 3]] (some 0)).getD [] ∧
      ([1, 2, 3] : List ℕ).length ≤
        ((selectComponent [[0], [1, 2, 3]] none).getD []).length := by
  constructor
  · obtain ⟨comp, hsel, hmem⟩ :=
      (selectComponent_spec [[0], [1, 2, 3]] (some 0)).1 0 rfl
        ⟨[0], by decide, by decide⟩
    rw [hsel]
    simpa using hmem
  · obtain ⟨comp, hsel, _hcm, hmax⟩ :=
      (selectComponent_spec [[0], [1, 2, 3]] none).2 rfl (by decide)
    rw [hsel]
    simpa using hmax [1, 2, 3] (by decide)

end FEgrow
